import Mathlib

/-!
Verification of the Artifact Resolution & Transcript Segmentation Engine
of ALi3naTEd0/transcriber, a shallow embedding of `src/app.py`.

Modelling conventions:
- Python floats are embedded as exact rationals (`ℚ`); Python floor
  division `//` and `%` on non-negative values become `Int.floor`
  expressions, and `int()` truncation of the non-negative results they
  produce is again `Int.floor`.
- Python strings are Lean `String`s; `str.strip` and `str.rstrip` are
  embedded with the ASCII whitespace class Python uses. `str.isalnum` is
  Unicode-aware, so it is carried as an explicit predicate parameter,
  pinned down on the ASCII range where Python documents it to agree with
  `Char.isAlphanum`.
- Files are embedded by their full names, with `pathlib` suffix, stem and
  `with_suffix` modelled on names; the downloads directory is a list of
  entries carrying a creation time (`ctime`), which is all the resolution
  step in `download_audio` consults: an existence test, the glob
  `f"{base_name}.*"` (a name-prefix match across a dot, so multi-dot
  names are matched), a `Path.suffix` allow-list, and
  `os.path.getctime`.
-/

namespace Transcriber

/-- ASCII whitespace, the character class stripped by Python `str.strip` and
`str.rstrip`. -/
def pyIsSpace (c : Char) : Bool :=
  c == ' ' || c == '\t' || c == '\n' || c == '\r' || c == '\x0b' || c == '\x0c'

/-- Python `str.rstrip` on a character list: drop trailing whitespace. -/
def rstripChars (cs : List Char) : List Char :=
  (cs.reverse.dropWhile pyIsSpace).reverse

/-- Python `str.strip`: drop leading and trailing whitespace. -/
def pyStrip (s : String) : String :=
  String.mk (rstripChars (s.data.dropWhile pyIsSpace))

/-- Decimal digit characters of a natural number, most significant first,
computed with an explicit fuel so the kernel can evaluate it. -/
def natCharsAux : Nat → Nat → List Char
  | 0, _ => []
  | fuel + 1, n =>
    if n < 10 then [Nat.digitChar n]
    else natCharsAux fuel (n / 10) ++ [Nat.digitChar (n % 10)]

/-- The decimal digits Python `%d` formatting prints for a non-negative
value. -/
def natChars (n : Nat) : List Char :=
  natCharsAux (n + 1) n

/-- Python `f"{n:02d}"`: decimal rendering zero-padded to width 2 (a sign,
when present, counts toward the width, exactly as in Python). -/
def pad2 (n : Int) : String :=
  let s := if n < 0 then "-" ++ String.mk (natChars n.natAbs)
           else String.mk (natChars n.natAbs)
  if s.length < 2 then "0" ++ s else s

/-- `TranscriberApp._format_timestamp` from `src/app.py` (lines 149-154):

    hours = int(seconds // 3600)
    minutes = int((seconds % 3600) // 60)
    secs = int(seconds % 60)
    return f"{hours:02d}:{minutes:02d}:{secs:02d}"

with Python floats embedded as exact rationals, so `x // y` is
`⌊x / y⌋` and `x % y` is `x - y * ⌊x / y⌋`. -/
def format_timestamp (seconds : ℚ) : String :=
  let hours : Int := ⌊seconds / 3600⌋
  let minutes : Int := ⌊(seconds - 3600 * (⌊seconds / 3600⌋ : ℚ)) / 60⌋
  let secs : Int := ⌊seconds - 60 * (⌊seconds / 60⌋ : ℚ)⌋
  pad2 hours ++ ":" ++ pad2 minutes ++ ":" ++ pad2 secs

/-- One timed unit of recognized speech, as produced by the speech engine
and consumed by `save_transcript` (`segment['start']`, `segment['end']`,
`segment['text']`). -/
structure Segment where
  start : ℚ
  «end» : ℚ
  text : String
deriving DecidableEq, Repr

/-- The speech engine result consumed by `save_transcript`:
`result['language']`, `result['text']`, `result['segments']`. -/
structure TranscriptionResult where
  language : String
  text : String
  segments : List Segment
deriving DecidableEq, Repr

/-- The character filter of `save_transcript` line 93:
`c.isalnum() or c in (' ', '-', '_')`. Python `str.isalnum` is
Unicode-aware; the Unicode character database lies outside this
embedding, so the single-character test `isalnum` is a parameter,
constrained where a concrete value is needed by its documented behaviour
on the ASCII range, where it coincides with `Char.isAlphanum`. -/
def isAllowedChar (isalnum : Char → Bool) (c : Char) : Bool :=
  isalnum c || c == ' ' || c == '-' || c == '_'

/-- `save_transcript` lines 93-94:

    safe_title = "".join(c for c in video_title
                         if c.isalnum() or c in (' ', '-', '_')).rstrip()
    safe_title = safe_title[:50]
-/
def safe_title (isalnum : Char → Bool) (video_title : String) : String :=
  String.mk
    ((rstripChars (video_title.data.filter (isAllowedChar isalnum))).take 50)

/-- Agreement of an alphanumeric test with Python `str.isalnum` on the
ASCII range, where the latter coincides with `Char.isAlphanum`. -/
def AsciiAlnumCompat (isalnum : Char → Bool) : Prop :=
  ∀ c : Char, c.toNat < 128 → isalnum c = c.isAlphanum

/-- A wall-clock instant at second resolution, the part of `datetime.now()`
that `save_transcript` formats. -/
structure DateTime where
  year : Nat
  month : Nat
  day : Nat
  hour : Nat
  minute : Nat
  second : Nat
deriving DecidableEq, Repr

/-- Python `strftime` zero-padding of one numeric field to width `w`. -/
def padNat (w n : Nat) : String :=
  String.mk (List.replicate (w - (natChars n).length) '0' ++ natChars n)

/-- `datetime.now().strftime("%Y%m%d_%H%M%S")` from `save_transcript`
line 92. -/
def strftime_stamp (t : DateTime) : String :=
  padNat 4 t.year ++ padNat 2 t.month ++ padNat 2 t.day ++ "_" ++
    padNat 2 t.hour ++ padNat 2 t.minute ++ padNat 2 t.second

/-- The shared stem of the three output files, `f"{safe_title}_{timestamp}"`
(`save_transcript` lines 97-99 drop role suffixes onto this stem). -/
def transcript_stem (isalnum : Char → Bool) (video_title : String)
    (t : DateTime) : String :=
  safe_title isalnum video_title ++ "_" ++ strftime_stamp t

/-- The separator line `"=" * 80` used by all three headers. -/
def sep80 : String :=
  String.mk (List.replicate 80 '=')

/-- Content of `<stem>.txt` written by `save_transcript` lines 102-108:
header (title, source, date, language), separator, blank line, stripped
full text. The `date` argument stands for
`datetime.now().strftime('%Y-%m-%d %H:%M:%S')`. -/
def txt_content (video_title source_url date : String)
    (result : TranscriptionResult) : String :=
  "Transcription of: " ++ video_title ++ "\n" ++
    "Source: " ++ source_url ++ "\n" ++
    "Date: " ++ date ++ "\n" ++
    "Language: " ++ result.language ++ "\n" ++
    sep80 ++ "\n\n" ++
    pyStrip result.text

/-- One block of the timestamped file, `save_transcript` lines 116-120:
`f"[{start_time} --> {end_time}]\n{text}\n\n"`. -/
def segment_block (s : Segment) : String :=
  "[" ++ format_timestamp s.start ++ " --> " ++ format_timestamp s.«end» ++
    "]\n" ++ pyStrip s.text ++ "\n\n"

/-- The concatenation of all segment blocks, in segment order. -/
def srt_blocks (segs : List Segment) : String :=
  String.join (segs.map segment_block)

/-- Content of `<stem>_timestamps.txt`, `save_transcript` lines 111-120. -/
def srt_content (video_title source_url : String)
    (result : TranscriptionResult) : String :=
  "Transcription with timestamps of: " ++ video_title ++ "\n" ++
    "Source: " ++ source_url ++ "\n" ++
    sep80 ++ "\n\n" ++
    srt_blocks result.segments

/-- The paragraph-grouping loop of `save_transcript` lines 128-145, carrying
the `current_paragraph` buffer. After appending the trimmed text of the
current segment, the buffer is flushed when the pause to the next segment
exceeds 1.5 seconds, or the buffer holds at least 6 lines, or the segment
is the last one. -/
def groupLoop (current_paragraph : List String) :
    List Segment → List (List String)
  | [] => []
  | [s] => [current_paragraph ++ [pyStrip s.text]]
  | s :: s2 :: rest =>
    let para := current_paragraph ++ [pyStrip s.text]
    if 3/2 < s2.start - s.«end» ∨ 6 ≤ para.length then
      para :: groupLoop [] (s2 :: rest)
    else
      groupLoop para (s2 :: rest)

/-- The paragraphs of the lyrics file, each a list of trimmed segment
texts. -/
def groupSegments (segs : List Segment) : List (List String) :=
  groupLoop [] segs

/-- One written paragraph: `'\n'.join(current_paragraph)` plus the
terminating blank line (`f"{paragraph_text}\n\n"`). -/
def paragraph_block (p : List String) : String :=
  String.intercalate "\n" p ++ "\n\n"

/-- Content of `<stem>_lyrics.txt`, `save_transcript` lines 123-145. -/
def lyrics_content (video_title source_url : String)
    (result : TranscriptionResult) : String :=
  "Transcription of: " ++ video_title ++ "\n" ++
    "Source: " ++ source_url ++ "\n" ++
    sep80 ++ "\n\n" ++
    String.join ((groupSegments result.segments).map paragraph_block)

/-- A parser recovering, from the character stream of the timestamped
blocks, the list of (encoded start, encoded end, trimmed text) triples.
`fuel` bounds the number of blocks parsed. -/
def parseBlocks : Nat → List Char → Option (List (String × String × String))
  | _, [] => some []
  | 0, _ => none
  | fuel + 1, '[' :: cs =>
    let tsPart := cs.takeWhile (· ≠ ']')
    match cs.dropWhile (· ≠ ']') with
    | ']' :: '\n' :: rest2 =>
      let a := tsPart.takeWhile (· ≠ ' ')
      match tsPart.dropWhile (· ≠ ' ') with
      | ' ' :: '-' :: '-' :: '>' :: ' ' :: b =>
        let txt := rest2.takeWhile (· ≠ '\n')
        match rest2.dropWhile (· ≠ '\n') with
        | '\n' :: '\n' :: rest5 =>
          match parseBlocks fuel rest5 with
          | some l => some ((String.mk a, String.mk b, String.mk txt) :: l)
          | none => none
        | _ => none
      | _ => none
    | _ => none
  | _ + 1, _ => none

end Transcriber

namespace Transcriber

/-! ### Helper lemmas -/

/-- C8: the full-text body is exactly the four header lines, a line of 80
equality signs, a blank line, and the stripped full text; it does not
depend on the segments in any way. -/
theorem full_text_body_spec (t u d : String) (r : TranscriptionResult) :
    txt_content t u d r =
      "Transcription of: " ++ t ++ "\n" ++ "Source: " ++ u ++ "\n" ++
        "Date: " ++ d ++ "\n" ++ "Language: " ++ r.language ++ "\n" ++
        String.mk (List.replicate 80 '=') ++ "\n\n" ++ pyStrip r.text ∧
    ∀ segs : List Segment,
      txt_content t u d { r with segments := segs } = txt_content t u d r := by
  exact ⟨rfl, fun _ => rfl⟩

/-! ### C9: empty segment sequence -/

/-- C9: with an empty segment sequence, `save_transcript` emits the
timestamped and lyrics bodies as exactly their header blocks, with no
segment blocks and no empty paragraph (the grouping produces no
paragraph at all). -/
theorem empty_segments_headers_only (t u : String) (r : TranscriptionResult)
    (h : r.segments = []) :
    srt_content t u r =
      "Transcription with timestamps of: " ++ t ++ "\n" ++
        "Source: " ++ u ++ "\n" ++ sep80 ++ "\n\n" ∧
    lyrics_content t u r =
      "Transcription of: " ++ t ++ "\n" ++
        "Source: " ++ u ++ "\n" ++ sep80 ++ "\n\n" ∧
    groupSegments r.segments = [] := by
  refine ⟨?_, ?_, ?_⟩
  · simp [srt_content, srt_blocks, h, String.join]
  · simp [lyrics_content, groupSegments, groupLoop, h, String.join]
  · simp [groupSegments, groupLoop, h]

theorem empty_segments_headers_only_witness :
    srt_content "t" "u" ⟨"en", "hello", []⟩ =
      "Transcription with timestamps of: " ++ "t" ++ "\n" ++
        "Source: " ++ "u" ++ "\n" ++ sep80 ++ "\n\n" ∧
    lyrics_content "t" "u" ⟨"en", "hello", []⟩ =
      "Transcription of: " ++ "t" ++ "\n" ++
        "Source: " ++ "u" ++ "\n" ++ sep80 ++ "\n\n" ∧
    groupSegments (⟨"en", "hello", []⟩ : TranscriptionResult).segments = [] :=
  empty_segments_headers_only "t" "u" ⟨"en", "hello", []⟩ rfl

/-! ### C6 and C10: the filename stem -/

lemma mem_of_dropWhile_mem {α : Type} {p : α → Bool} :
    ∀ {l : List α} {a : α}, a ∈ l.dropWhile p → a ∈ l := by
  intro l a h
  induction l with
  | nil => simp at h
  | cons x xs ih =>
    rw [List.dropWhile_cons] at h
    by_cases hp : p x = true
    · simp only [hp, if_true] at h
      exact List.mem_cons_of_mem _ (ih h)
    · simp only [hp, Bool.false_eq_true, if_false] at h
      exact h

lemma mem_of_rstrip_mem {cs : List Char} {a : Char}
    (h : a ∈ rstripChars cs) : a ∈ cs := by
  unfold rstripChars at h
  rw [List.mem_reverse] at h
  exact List.mem_reverse.mp (mem_of_dropWhile_mem h)

lemma mem_of_take_mem {α : Type} {l : List α} {n : Nat} {a : α}
    (h : a ∈ l.take n) : a ∈ l :=
  List.Sublist.mem h (List.take_sublist n l)

/-- C6: for every single-character alphanumeric test (Python Unicode
`str.isalnum` is supplied as the parameter `isalnum`), the stem builder
keeps exactly the characters that pass `isalnum` — letters and digits,
in the Unicode sense — or are a space, hyphen or underscore, dropping
all others with no substitution; it then strips trailing whitespace,
truncates to the first 50 characters, and appends an underscore plus the
`YYYYMMDD_HHMMSS` stamp; two titles with the same sanitized 50-character
prefix give stems of the same length. -/
theorem stem_sanitizer_spec (isalnum : Char → Bool) (t : String)
    (ts : DateTime) :
    safe_title isalnum t =
      String.mk
        ((rstripChars (t.data.filter (isAllowedChar isalnum))).take 50) ∧
    (∀ c ∈ (safe_title isalnum t).data, isAllowedChar isalnum c = true) ∧
    (safe_title isalnum t).length ≤ 50 ∧
    transcript_stem isalnum t ts
      = safe_title isalnum t ++ "_" ++ strftime_stamp ts ∧
    (∀ t2 : String, safe_title isalnum t = safe_title isalnum t2 →
      (transcript_stem isalnum t ts).length
        = (transcript_stem isalnum t2 ts).length) := by
  refine ⟨rfl, ?_, ?_, rfl, ?_⟩
  · intro c hc
    exact List.of_mem_filter (mem_of_rstrip_mem (mem_of_take_mem hc))
  · show (List.take 50 _).length ≤ 50
    rw [List.length_take]
    exact min_le_left _ _
  · intro t2 h
    simp only [transcript_stem, String.length_append, h]

theorem stem_sanitizer_spec_witness :
    (transcript_stem Char.isAlphanum "aaaaaa!" ⟨2026, 10, 12, 0, 0, 0⟩).length =
      (transcript_stem Char.isAlphanum "aaaaaa" ⟨2026, 10, 12, 0, 0, 0⟩).length :=
  (stem_sanitizer_spec Char.isAlphanum "aaaaaa!"
      ⟨2026, 10, 12, 0, 0, 0⟩).2.2.2.2 "aaaaaa" (by decide)

/-- C10: for every alphanumeric test that behaves as Python documents on
the ASCII range, there is a title whose sanitized 50-character prefix
ends in a space, because `rstrip` runs before the truncation to 50
characters and is not reapplied afterward: 49 allowed characters, a
space, then more allowed characters. -/
theorem sanitized_title_trailing_space (isalnum : Char → Bool)
    (hascii : AsciiAlnumCompat isalnum) :
    ∃ t : String, (safe_title isalnum t).data ≠ [] ∧
      (safe_title isalnum t).data.getLast? = some ' ' := by
  refine ⟨String.mk (List.replicate 49 'a' ++ ' ' :: ['b', 'b', 'b']), ?_, ?_⟩ <;>
  · have hsame : safe_title isalnum
        (String.mk (List.replicate 49 'a' ++ ' ' :: ['b', 'b', 'b']))
        = safe_title Char.isAlphanum
            (String.mk (List.replicate 49 'a' ++ ' ' :: ['b', 'b', 'b'])) := by
      have hall : ∀ x ∈ (String.mk
          (List.replicate 49 'a' ++ ' ' :: ['b', 'b', 'b'])).data,
          x.toNat < 128 := by decide
      unfold safe_title
      rw [List.filter_congr]
      intro c hc
      simp only [isAllowedChar, hascii c (hall c hc)]
    rw [hsame]
    decide

theorem sanitized_title_trailing_space_witness :
    ∃ t : String, (safe_title Char.isAlphanum t).data ≠ [] ∧
      (safe_title Char.isAlphanum t).data.getLast? = some ' ' :=
  sanitized_title_trailing_space Char.isAlphanum fun _ _ => rfl

/-! ### C5: the timestamp encoder -/

lemma rat_floor_div_nat (q : ℚ) (n : ℕ) (hn : 0 < n) :
    ⌊q / (n : ℚ)⌋ = ⌊q⌋ / (n : ℤ) := by
  have hn0 : (0:ℚ) < (n:ℚ) := by exact_mod_cast hn
  have hnz : (n:ℤ) ≠ 0 := by exact_mod_cast hn.ne'
  have hdecomp : (n:ℤ) * (⌊q⌋ / (n:ℤ)) + ⌊q⌋ % (n:ℤ) = ⌊q⌋ :=
    Int.ediv_add_emod _ _
  have hm0 : 0 ≤ ⌊q⌋ % (n:ℤ) := Int.emod_nonneg _ hnz
  have hmlt : ⌊q⌋ % (n:ℤ) < (n:ℤ) := Int.emod_lt_of_pos _ (by exact_mod_cast hn)
  rw [Int.floor_eq_iff]
  constructor
  · rw [le_div_iff₀ hn0]
    have h1 : ((n:ℤ) * (⌊q⌋ / (n:ℤ)) : ℤ) ≤ ⌊q⌋ := by omega
    have h1q : (((n:ℤ) * (⌊q⌋ / (n:ℤ)) : ℤ) : ℚ) ≤ (⌊q⌋ : ℚ) := by
      exact_mod_cast h1
    have h2 : (⌊q⌋ : ℚ) ≤ q := Int.floor_le q
    push_cast at h1q ⊢
    linarith
  · rw [div_lt_iff₀ hn0]
    have h1 : ⌊q⌋ + 1 ≤ ((n:ℤ) * (⌊q⌋ / (n:ℤ)) + (n:ℤ) : ℤ) := by omega
    have h1q : ((⌊q⌋ : ℤ) : ℚ) + 1 ≤ (((n:ℤ) * (⌊q⌋ / (n:ℤ)) + (n:ℤ) : ℤ) : ℚ) := by
      exact_mod_cast h1
    have h2 : q < (⌊q⌋ : ℚ) + 1 := Int.lt_floor_add_one q
    push_cast at h1q ⊢
    linarith

lemma rat_floor_div_60 (q : ℚ) : ⌊q / 60⌋ = ⌊q⌋ / 60 := by
  have h := rat_floor_div_nat q 60 (by norm_num)
  norm_num at h
  exact h

lemma rat_floor_div_minutes (q : ℚ) :
    ⌊(q - 3600 * (⌊q / 3600⌋ : ℚ)) / 60⌋ = ⌊q / 60⌋ % 60 := by
  have h1 : (q - 3600 * (⌊q / 3600⌋ : ℚ)) / 60
      = q / 60 - ((60 * ⌊q / 3600⌋ : ℤ) : ℚ) := by
    push_cast
    ring
  rw [h1, Int.floor_sub_int]
  have h2 : ⌊q / 3600⌋ = ⌊q / 60⌋ / 60 := by
    have h3 : q / 3600 = q / 60 / 60 := by ring
    rw [h3, rat_floor_div_60 (q / 60)]
  rw [h2]
  omega

lemma rat_floor_secs (q : ℚ) :
    ⌊q - 60 * (⌊q / 60⌋ : ℚ)⌋ = ⌊q⌋ % 60 := by
  have h1 : q - 60 * (⌊q / 60⌋ : ℚ) = q - ((60 * ⌊q / 60⌋ : ℤ) : ℚ) := by
    push_cast
    ring
  rw [h1, Int.floor_sub_int, rat_floor_div_60]
  omega

/-- C5: for every non-negative duration, the encoder prints
`floor(seconds / 3600)`, `floor((seconds mod 3600) / 60)` (equivalently
`floor(seconds / 60) mod 60`) and `floor(seconds mod 60)` (equivalently
`floor(seconds) mod 60`), each zero-padded to width 2 with hours free to
widen; fractions truncate rather than round, as the three reference
values show. -/
theorem format_timestamp_spec :
    (∀ q : ℚ, 0 ≤ q →
      format_timestamp q =
        pad2 ⌊q / 3600⌋ ++ ":" ++ pad2 (⌊q / 60⌋ % 60) ++ ":" ++
          pad2 (⌊q⌋ % 60)) ∧
    format_timestamp 0 = "00:00:00" ∧
    format_timestamp 3661 = "01:01:01" ∧
    format_timestamp (59999 / 1000) = "00:00:59" := by
  have hgen : ∀ q : ℚ, 0 ≤ q →
      format_timestamp q =
        pad2 ⌊q / 3600⌋ ++ ":" ++ pad2 (⌊q / 60⌋ % 60) ++ ":" ++
          pad2 (⌊q⌋ % 60) := by
    intro q _
    simp only [format_timestamp]
    rw [rat_floor_div_minutes q, rat_floor_secs q]
  refine ⟨hgen, ?_, ?_, ?_⟩
  · rw [hgen 0 le_rfl]
    have f1 : ⌊(0:ℚ) / 3600⌋ = 0 := by norm_num
    have f2 : ⌊(0:ℚ) / 60⌋ = 0 := by norm_num
    have f3 : ⌊(0:ℚ)⌋ = 0 := by norm_num
    rw [f1, f2, f3]
    decide
  · rw [hgen 3661 (by norm_num)]
    have f1 : ⌊(3661:ℚ) / 3600⌋ = 1 := by norm_num
    have f2 : ⌊(3661:ℚ) / 60⌋ = 61 := by norm_num
    have f3 : ⌊(3661:ℚ)⌋ = 3661 := by norm_num
    rw [f1, f2, f3]
    decide
  · rw [hgen (59999 / 1000) (by norm_num)]
    have f1 : ⌊(59999 / 1000 : ℚ) / 3600⌋ = 0 := by norm_num
    have f2 : ⌊(59999 / 1000 : ℚ) / 60⌋ = 0 := by norm_num
    have f3 : ⌊(59999 / 1000 : ℚ)⌋ = 59 := by norm_num
    rw [f1, f2, f3]
    decide

theorem format_timestamp_spec_witness :
    format_timestamp 3661 =
      pad2 ⌊(3661:ℚ) / 3600⌋ ++ ":" ++ pad2 (⌊(3661:ℚ) / 60⌋ % 60) ++ ":" ++
        pad2 (⌊(3661:ℚ)⌋ % 60) :=
  format_timestamp_spec.1 3661 (by decide)

/-! ### C3 and C4: the lyrics paragraph grouping -/

/-- The gap bound of the grouping heuristic: no pause above 1.5 seconds. -/
def NoLongPause (segs : List Segment) : Prop :=
  List.Chain' (fun s s2 => s2.start - s.«end» ≤ 3/2) segs

lemma groupLoop_ne_nil (rest : List Segment) : ∀ (buf : List String)
    (s : Segment), groupLoop buf (s :: rest) ≠ [] := by
  induction rest with
  | nil => intro buf s; simp [groupLoop]
  | cons s2 r2 ih =>
    intro buf s
    simp only [groupLoop]
    split
    · simp
    · exact ih _ _

lemma groupLoop_join (segs : List Segment) : ∀ buf : List String,
    segs ≠ [] →
    (groupLoop buf segs).flatten = buf ++ segs.map fun s => pyStrip s.text := by
  induction segs with
  | nil => intro buf h; exact absurd rfl h
  | cons s tail ih =>
    intro buf _
    cases tail with
    | nil => simp [groupLoop]
    | cons s2 r2 =>
      simp only [groupLoop]
      split
      · rw [List.flatten_cons, ih [] (by simp)]
        simp
      · rw [ih (buf ++ [pyStrip s.text]) (by simp)]
        simp

lemma groupLoop_sizes (segs : List Segment) : ∀ buf : List String,
    buf.length < 6 →
    ∀ p ∈ groupLoop buf segs, 1 ≤ p.length ∧ p.length ≤ 6 := by
  induction segs with
  | nil => intro buf _ p hp; simp [groupLoop] at hp
  | cons s tail ih =>
    intro buf hbuf p hp
    cases tail with
    | nil =>
      simp only [groupLoop, List.mem_singleton] at hp
      subst hp
      simp only [List.length_append, List.length_singleton]
      omega
    | cons s2 r2 =>
      simp only [groupLoop] at hp
      by_cases hcond : 3/2 < s2.start - s.«end» ∨ 6 ≤ (buf ++ [pyStrip s.text]).length
      · rw [if_pos hcond] at hp
        rcases List.mem_cons.mp hp with h | h
        · subst h
          simp only [List.length_append, List.length_singleton]
          omega
        · exact ih [] (by simp) p h
      · rw [if_neg hcond] at hp
        push_neg at hcond
        have hlen : (buf ++ [pyStrip s.text]).length < 6 := by omega
        exact ih _ hlen p hp

lemma groupLoop_nopause_length (segs : List Segment) : ∀ buf : List String,
    segs ≠ [] → buf.length < 6 → NoLongPause segs →
    (groupLoop buf segs).length = (buf.length + segs.length + 5) / 6 := by
  induction segs with
  | nil => intro buf h; exact absurd rfl h
  | cons s tail ih =>
    intro buf _ hbuf hchain
    cases tail with
    | nil =>
      simp only [groupLoop, List.length_singleton, List.length_cons,
        List.length_nil]
      omega
    | cons s2 r2 =>
      have hgap : s2.start - s.«end» ≤ 3/2 := (List.chain'_cons.mp hchain).1
      have hchain2 : NoLongPause (s2 :: r2) := (List.chain'_cons.mp hchain).2
      simp only [groupLoop]
      by_cases hcond :
          3/2 < s2.start - s.«end» ∨ 6 ≤ (buf ++ [pyStrip s.text]).length
      · have hb5 : buf.length = 5 := by
          rcases hcond with h | h
          · exact absurd h (not_lt.mpr hgap)
          · simp only [List.length_append, List.length_singleton] at h
            omega
        rw [if_pos hcond]
        have hih := ih [] (by simp) (by simp) hchain2
        simp only [List.length_nil, List.length_cons] at hih
        simp only [List.length_cons, hih, hb5]
        omega
      · rw [if_neg hcond]
        push_neg at hcond
        rw [ih _ (by simp) hcond.2 hchain2]
        simp only [List.length_append, List.length_singleton, List.length_cons,
          List.length_nil]
        omega

lemma groupLoop_nopause_dropLast (segs : List Segment) : ∀ buf : List String,
    buf.length < 6 → NoLongPause segs →
    ∀ p ∈ (groupLoop buf segs).dropLast, p.length = 6 := by
  induction segs with
  | nil => intro buf _ _ p hp; simp [groupLoop] at hp
  | cons s tail ih =>
    intro buf hbuf hchain p hp
    cases tail with
    | nil => simp [groupLoop] at hp
    | cons s2 r2 =>
      have hgap : s2.start - s.«end» ≤ 3/2 := (List.chain'_cons.mp hchain).1
      have hchain2 : NoLongPause (s2 :: r2) := (List.chain'_cons.mp hchain).2
      simp only [groupLoop] at hp
      by_cases hcond :
          3/2 < s2.start - s.«end» ∨ 6 ≤ (buf ++ [pyStrip s.text]).length
      · rw [if_pos hcond] at hp
        have hne := groupLoop_ne_nil r2 [] s2
        rcases hl : groupLoop [] (s2 :: r2) with _ | ⟨y, ys⟩
        · exact absurd hl hne
        · rw [hl, List.dropLast_cons₂] at hp
          rcases List.mem_cons.mp hp with h | h
          · subst h
            have hb5 : buf.length = 5 := by
              rcases hcond with hc | hc
              · exact absurd hc (not_lt.mpr hgap)
              · simp only [List.length_append, List.length_singleton] at hc
                omega
            simp only [List.length_append, List.length_singleton, hb5]
          · refine ih [] (by simp) hchain2 p ?_
            rw [hl]
            exact h
      · rw [if_neg hcond] at hp
        push_neg at hcond
        exact ih _ hcond.2 hchain2 p hp

/-- C3: with no pause above 1.5 seconds, a non-empty sequence of N segments
is grouped into ceil(N/6) paragraphs, every paragraph except possibly the
last holding exactly 6 segments, in the original order. -/
theorem lyrics_grouping_ceil (segs : List Segment)
    (hne : segs ≠ []) (hchain : NoLongPause segs) :
    (groupSegments segs).length = (segs.length + 5) / 6 ∧
    (∀ p ∈ (groupSegments segs).dropLast, p.length = 6) ∧
    (groupSegments segs).flatten = segs.map fun s => pyStrip s.text := by
  refine ⟨?_, ?_, ?_⟩
  · have h := groupLoop_nopause_length segs [] hne (by simp) hchain
    simpa [groupSegments] using h
  · exact groupLoop_nopause_dropLast segs [] (by simp) hchain
  · have h := groupLoop_join segs [] hne
    simpa [groupSegments] using h

theorem lyrics_grouping_ceil_witness :
    (groupSegments [⟨0, 1, "a"⟩]).length
      = (([(⟨0, 1, "a"⟩ : Segment)].length + 5) / 6) ∧
    (∀ p ∈ (groupSegments [⟨0, 1, "a"⟩]).dropLast, p.length = 6) ∧
    (groupSegments [⟨0, 1, "a"⟩]).flatten
      = [(⟨0, 1, "a"⟩ : Segment)].map fun s => pyStrip s.text :=
  lyrics_grouping_ceil [⟨0, 1, "a"⟩] (by simp) (by simp [NoLongPause])

/-- C4: every segment lands in exactly one paragraph (the concatenation of
the paragraphs is the segment texts in original order), no paragraph is
empty or exceeds 6 segments, and the loop flushes exactly when the gap to
the next segment exceeds 1.5 seconds, the buffer has reached 6 entries,
or the segment is the last one. -/
theorem lyrics_grouping_invariants (segs : List Segment) :
    ((groupSegments segs).flatten = segs.map fun s => pyStrip s.text) ∧
    (∀ p ∈ groupSegments segs, 1 ≤ p.length ∧ p.length ≤ 6) ∧
    (∀ (buf : List String) (s : Segment),
      groupLoop buf [s] = [buf ++ [pyStrip s.text]]) ∧
    (∀ (buf : List String) (s s2 : Segment) (rest : List Segment),
      groupLoop buf (s :: s2 :: rest) =
        if 3/2 < s2.start - s.«end» ∨ 6 ≤ buf.length + 1 then
          (buf ++ [pyStrip s.text]) :: groupLoop [] (s2 :: rest)
        else groupLoop (buf ++ [pyStrip s.text]) (s2 :: rest)) := by
  refine ⟨?_, ?_, fun buf s => rfl, ?_⟩
  · cases segs with
    | nil => simp [groupSegments, groupLoop]
    | cons s tail =>
      simpa [groupSegments] using groupLoop_join (s :: tail) [] (by simp)
  · exact fun p hp => groupLoop_sizes segs [] (by simp) p hp
  · intro buf s s2 rest
    simp only [groupLoop, List.length_append, List.length_singleton]

theorem lyrics_grouping_invariants_witness :
    1 ≤ (["a"] : List String).length ∧ (["a"] : List String).length ≤ 6 :=
  (lyrics_grouping_invariants [⟨0, 1, "a"⟩]).2.1 ["a"] (by decide)

/-! ### C7: round trip of the timestamped blocks -/

lemma takeWhile_append_all {p : Char → Bool} (xs : List Char)
    (hxs : ∀ c ∈ xs, p c = true) : ∀ ys : List Char,
    (xs ++ ys).takeWhile p = xs ++ ys.takeWhile p := by
  induction xs with
  | nil => intro ys; simp
  | cons x xt ih =>
    intro ys
    have hx : p x = true := hxs x (List.mem_cons_self _ _)
    simp only [List.cons_append, List.takeWhile_cons, hx, if_true]
    rw [ih (fun c hc => hxs c (List.mem_cons_of_mem _ hc)) ys]

lemma dropWhile_append_all {p : Char → Bool} (xs : List Char)
    (hxs : ∀ c ∈ xs, p c = true) : ∀ ys : List Char,
    (xs ++ ys).dropWhile p = ys.dropWhile p := by
  induction xs with
  | nil => intro ys; simp
  | cons x xt ih =>
    intro ys
    have hx : p x = true := hxs x (List.mem_cons_self _ _)
    simp only [List.cons_append, List.dropWhile_cons, hx, if_true]
    exact ih (fun c hc => hxs c (List.mem_cons_of_mem _ hc)) ys

lemma digitChar_isDigit {n : Nat} (h : n < 10) :
    (Nat.digitChar n).isDigit = true := by
  interval_cases n <;> decide

lemma natCharsAux_digits : ∀ (fuel n : Nat),
    ∀ c ∈ natCharsAux fuel n, c.isDigit = true := by
  intro fuel
  induction fuel with
  | zero => intro n c hc; simp [natCharsAux] at hc
  | succ f ih =>
    intro n c hc
    simp only [natCharsAux] at hc
    by_cases hn : n < 10
    · rw [if_pos hn] at hc
      rw [List.mem_singleton.mp hc]
      exact digitChar_isDigit hn
    · rw [if_neg hn] at hc
      rcases List.mem_append.mp hc with h | h
      · exact ih _ c h
      · rw [List.mem_singleton.mp h]
        exact digitChar_isDigit (Nat.mod_lt _ (by omega))

lemma pad2_digits {n : Int} (h : 0 ≤ n) :
    ∀ c ∈ (pad2 n).data, c.isDigit = true := by
  intro c hc
  simp only [pad2, Int.not_lt.mpr h, if_false] at hc
  split at hc
  · rw [String.data_append] at hc
    have h0 : ("0" : String).data = ['0'] := rfl
    rw [h0] at hc
    rcases List.mem_append.mp hc with h1 | h1
    · rw [List.mem_singleton.mp h1]
      decide
    · exact natCharsAux_digits _ _ c h1
  · exact natCharsAux_digits _ _ c hc

lemma format_timestamp_digits {q : ℚ} (h : 0 ≤ q) :
    ∀ c ∈ (format_timestamp q).data, c.isDigit = true ∨ c = ':' := by
  have hq60 : (⌊q / 60⌋ : ℚ) ≤ q / 60 := Int.floor_le _
  have hq3600 : (⌊q / 3600⌋ : ℚ) ≤ q / 3600 := Int.floor_le _
  have hh : 0 ≤ ⌊q / 3600⌋ := Int.floor_nonneg.mpr (by positivity)
  have hm : 0 ≤ ⌊(q - 3600 * (⌊q / 3600⌋ : ℚ)) / 60⌋ := by
    apply Int.floor_nonneg.mpr
    have h1 : 3600 * (⌊q / 3600⌋ : ℚ) ≤ 3600 * (q / 3600) :=
      mul_le_mul_of_nonneg_left hq3600 (by norm_num)
    have h2 : (3600 : ℚ) * (q / 3600) = q := by ring
    apply div_nonneg _ (by norm_num)
    linarith
  have hs : 0 ≤ ⌊q - 60 * (⌊q / 60⌋ : ℚ)⌋ := by
    apply Int.floor_nonneg.mpr
    have h1 : 60 * (⌊q / 60⌋ : ℚ) ≤ 60 * (q / 60) :=
      mul_le_mul_of_nonneg_left hq60 (by norm_num)
    have h2 : (60 : ℚ) * (q / 60) = q := by ring
    linarith
  intro c hc
  simp only [format_timestamp, String.data_append] at hc
  simp only [List.mem_append, List.mem_singleton] at hc
  rcases hc with (((h1 | h1) | h1) | h1) | h1
  · exact Or.inl (pad2_digits hh c h1)
  · exact Or.inr h1
  · exact Or.inl (pad2_digits hm c h1)
  · exact Or.inr h1
  · exact Or.inl (pad2_digits hs c h1)

lemma format_no_specials {q : ℚ} (h : 0 ≤ q) :
    ∀ c ∈ (format_timestamp q).data, c ≠ ']' ∧ c ≠ ' ' ∧ c ≠ '\n' := by
  intro c hc
  rcases format_timestamp_digits h c hc with hd | hd
  · refine ⟨?_, ?_, ?_⟩ <;> (rintro rfl; exact absurd hd (by decide))
  · subst hd
    refine ⟨by decide, by decide, by decide⟩

lemma string_foldl_append (xs : List String) : ∀ (a b : String),
    xs.foldl (· ++ ·) (a ++ b) = a ++ xs.foldl (· ++ ·) b := by
  induction xs with
  | nil => intro a b; rfl
  | cons x xt ih =>
    intro a b
    simp only [List.foldl_cons, String.append_assoc]
    exact ih a (b ++ x)

lemma srt_blocks_cons (s : Segment) (rest : List Segment) :
    srt_blocks (s :: rest) = segment_block s ++ srt_blocks rest := by
  unfold srt_blocks String.join
  simp only [List.map_cons, List.foldl_cons]
  have h1 : ("" : String) ++ segment_block s = segment_block s ++ "" := by
    simp
  rw [h1, string_foldl_append]

lemma parseBlocks_exact (fuel : Nat) (fS fE tx restcs : List Char)
    (hfS : ∀ c ∈ fS, c ≠ ']' ∧ c ≠ ' ' ∧ c ≠ '\n')
    (hfE : ∀ c ∈ fE, c ≠ ']' ∧ c ≠ ' ' ∧ c ≠ '\n')
    (htx : '\n' ∉ tx) :
    parseBlocks (fuel + 1)
      ('[' :: (fS ++ (' ' :: '-' :: '-' :: '>' :: ' ' ::
        (fE ++ (']' :: '\n' :: (tx ++ ('\n' :: '\n' :: restcs)))))))
      = Option.map (fun l => (String.mk fS, String.mk fE, String.mk tx) :: l)
          (parseBlocks fuel restcs) := by
  have hS1 : ∀ c ∈ fS, (decide (c ≠ ']') : Bool) = true :=
    fun c hc => decide_eq_true (hfS c hc).1
  have hS2 : ∀ c ∈ fS, (decide (c ≠ ' ') : Bool) = true :=
    fun c hc => decide_eq_true (hfS c hc).2.1
  have hE1 : ∀ c ∈ fE, (decide (c ≠ ']') : Bool) = true :=
    fun c hc => decide_eq_true (hfE c hc).1
  have hT1 : ∀ c ∈ tx, (decide (c ≠ '\n') : Bool) = true :=
    fun c hc => decide_eq_true (fun h => htx (h ▸ hc))
  have htake1 : (fS ++ (' ' :: '-' :: '-' :: '>' :: ' ' ::
      (fE ++ (']' :: '\n' :: (tx ++ ('\n' :: '\n' :: restcs)))))).takeWhile
        (fun c => decide (c ≠ ']'))
      = fS ++ (' ' :: '-' :: '-' :: '>' :: ' ' :: fE) := by
    rw [takeWhile_append_all fS hS1,
      List.takeWhile_cons_of_pos (by decide), List.takeWhile_cons_of_pos (by decide),
      List.takeWhile_cons_of_pos (by decide), List.takeWhile_cons_of_pos (by decide),
      List.takeWhile_cons_of_pos (by decide), takeWhile_append_all fE hE1,
      List.takeWhile_cons_of_neg (by decide)]
    simp
  have hdrop1 : (fS ++ (' ' :: '-' :: '-' :: '>' :: ' ' ::
      (fE ++ (']' :: '\n' :: (tx ++ ('\n' :: '\n' :: restcs)))))).dropWhile
        (fun c => decide (c ≠ ']'))
      = ']' :: '\n' :: (tx ++ ('\n' :: '\n' :: restcs)) := by
    rw [dropWhile_append_all fS hS1,
      List.dropWhile_cons_of_pos (by decide), List.dropWhile_cons_of_pos (by decide),
      List.dropWhile_cons_of_pos (by decide), List.dropWhile_cons_of_pos (by decide),
      List.dropWhile_cons_of_pos (by decide), dropWhile_append_all fE hE1,
      List.dropWhile_cons_of_neg (by decide)]
  have htake2 : (fS ++ (' ' :: '-' :: '-' :: '>' :: ' ' :: fE)).takeWhile
        (fun c => decide (c ≠ ' ')) = fS := by
    rw [takeWhile_append_all fS hS2, List.takeWhile_cons_of_neg (by decide)]
    simp
  have hdrop2 : (fS ++ (' ' :: '-' :: '-' :: '>' :: ' ' :: fE)).dropWhile
        (fun c => decide (c ≠ ' '))
      = ' ' :: '-' :: '-' :: '>' :: ' ' :: fE := by
    rw [dropWhile_append_all fS hS2, List.dropWhile_cons_of_neg (by decide)]
  have htake3 : (tx ++ ('\n' :: '\n' :: restcs)).takeWhile
        (fun c => decide (c ≠ '\n')) = tx := by
    rw [takeWhile_append_all tx hT1, List.takeWhile_cons_of_neg (by decide)]
    simp
  have hdrop3 : (tx ++ ('\n' :: '\n' :: restcs)).dropWhile
        (fun c => decide (c ≠ '\n')) = '\n' :: '\n' :: restcs := by
    rw [dropWhile_append_all tx hT1, List.dropWhile_cons_of_neg (by decide)]
  simp only [parseBlocks, htake1, hdrop1, htake2, hdrop2, htake3, hdrop3]
  cases parseBlocks fuel restcs with
  | none => rfl
  | some l => rfl

lemma parseBlocks_srt (segs : List Segment) : ∀ fuel : Nat,
    segs.length ≤ fuel →
    (∀ s ∈ segs, 0 ≤ s.start ∧ 0 ≤ s.«end» ∧ '\n' ∉ (pyStrip s.text).data) →
    parseBlocks fuel (srt_blocks segs).data
      = some (segs.map fun s =>
          (format_timestamp s.start, format_timestamp s.«end»,
            pyStrip s.text)) := by
  induction segs with
  | nil =>
    intro fuel _ _
    have h : (srt_blocks []).data = [] := rfl
    rw [h]
    cases fuel <;> rfl
  | cons s rest ih =>
    intro fuel hfuel hprops
    cases fuel with
    | zero => simp [List.length_cons] at hfuel
    | succ f =>
      obtain ⟨hs0, he0, ht0⟩ := hprops s (List.mem_cons_self _ _)
      have d1 : ("[" : String).data = ['['] := rfl
      have d2 : (" --> " : String).data = [' ', '-', '-', '>', ' '] := rfl
      have d3 : ("]\n" : String).data = [']', '\n'] := rfl
      have d4 : ("\n\n" : String).data = ['\n', '\n'] := rfl
      have hshape : (srt_blocks (s :: rest)).data
          = '[' :: ((format_timestamp s.start).data ++
            (' ' :: '-' :: '-' :: '>' :: ' ' ::
            ((format_timestamp s.«end»).data ++ (']' :: '\n' ::
            ((pyStrip s.text).data ++
              ('\n' :: '\n' :: (srt_blocks rest).data)))))) := by
        rw [srt_blocks_cons, String.data_append]
        simp only [segment_block, String.data_append, d1, d2, d3, d4,
          List.append_assoc, List.cons_append, List.nil_append]
      have hrest : rest.length ≤ f := by
        simp only [List.length_cons] at hfuel
        omega
      rw [hshape,
        parseBlocks_exact f _ _ _ _
          (fun c hc => format_no_specials hs0 c hc)
          (fun c hc => format_no_specials he0 c hc) ht0,
        ih f hrest (fun s2 hs2 => hprops s2 (List.mem_cons_of_mem _ hs2))]
      rfl

/-- C7: the timestamped blocks region holds one block per segment, in
order, and parsing the blocks back out of the generated text recovers the
(encoded start, encoded end, trimmed text) triples in the same length and
order, provided timestamps are non-negative and no trimmed text holds a
newline (the block delimiters would otherwise be ambiguous). -/
theorem srt_roundtrip (segs : List Segment) (fuel : Nat)
    (hfuel : segs.length ≤ fuel)
    (hwf : ∀ s ∈ segs,
      0 ≤ s.start ∧ 0 ≤ s.«end» ∧ '\n' ∉ (pyStrip s.text).data) :
    (segs.map segment_block).length = segs.length ∧
    parseBlocks fuel (srt_blocks segs).data
      = some (segs.map fun s =>
          (format_timestamp s.start, format_timestamp s.«end»,
            pyStrip s.text)) :=
  ⟨List.length_map _ _, parseBlocks_srt segs fuel hfuel hwf⟩

theorem srt_roundtrip_witness :
    (([(⟨0, 1, "a"⟩ : Segment)]).map segment_block).length
      = [(⟨0, 1, "a"⟩ : Segment)].length ∧
    parseBlocks 1 (srt_blocks [⟨0, 1, "a"⟩]).data
      = some ([(⟨0, 1, "a"⟩ : Segment)].map fun s =>
          (format_timestamp s.start, format_timestamp s.«end»,
            pyStrip s.text)) :=
  srt_roundtrip [⟨0, 1, "a"⟩] 1 (by decide) (by decide)
